import Mathlib

/-!
Verification of the WCTSystem driver simulator (`driver_simulator.py`).

The script's core is:
* `evenly_space_coordinates` — path densification (linear interpolation along
  each consecutive pair of route vertices);
* the waypoint matcher `_is_near_waypoint` together with the first-match bin
  loop of `drive_route`;
* the `DriverSimulator` class and its `drive_route` simulation loop.

Numbers are modelled by `ℚ` (the Python code computes with IEEE floats; the
rational model is the exact real-arithmetic semantics of the same formulas).
The one irrational intermediate value, `distance = math.sqrt(dx**2 + dy**2)`,
is consumed by the source only through `int(distance / spacing_factor)`, i.e.
through the floor of `√d2 / s`.  For `s > 0` that floor is the rational
computation `Nat.sqrt ⌊d2 / s^2⌋₊`; the lemma `num_points_eq_real_floor`
below proves this agrees with the real-number reading `⌊Real.sqrt d2 / s⌋`,
certifying that the executable embedding is faithful.
-/

namespace WctDriverSim

/-- Round a rational to the nearest integer, ties to even — the rounding rule
of Python's built-in `round`. -/
def round_half_even (x : ℚ) : ℤ :=
  if x - ⌊x⌋ < 1/2 then ⌊x⌋
  else if 1/2 < x - ⌊x⌋ then ⌊x⌋ + 1
  else if ⌊x⌋ % 2 = 0 then ⌊x⌋ else ⌊x⌋ + 1

/-- Python's `round(x, 6)` (line 52): round to 6 decimal places. -/
def round6 (x : ℚ) : ℚ :=
  (round_half_even (x * 1000000) : ℚ) / 1000000

/-- Squared Euclidean distance between two `[longitude, latitude]` points.
The source (lines 39–42) computes `distance = math.sqrt` of this quantity. -/
def sq_dist (p q : ℚ × ℚ) : ℚ :=
  (q.1 - p.1) ^ 2 + (q.2 - p.2) ^ 2

/-- Largest `j ≤ k` with `j * j ≤ n` (and `0` when there is none).  A
structurally recursive integer square root scan, so that concrete densified
routes evaluate inside the kernel; `isqrt_eq_sqrt` proves it equal to
`Nat.sqrt`. -/
def isqrt_below : ℕ → ℕ → ℕ
  | 0, _ => 0
  | k + 1, n => if (k + 1) * (k + 1) ≤ n then k + 1 else isqrt_below k n

/-- The integer square root `⌊√n⌋`, computed by `isqrt_below`. -/
def isqrt (n : ℕ) : ℕ := isqrt_below n n

/-- Line 45: `num_points = max(1, int(distance / spacing_factor))`.
For `spacing_factor > 0` the quantity `int(distance / spacing_factor)` is
`⌊√(sq_dist) / spacing_factor⌋ = isqrt ⌊sq_dist / spacing_factor^2⌋₊`,
which is how we compute it executably; `num_points_eq_real_floor` proves the
two readings equal.  (The code is only ever run with a positive spacing
factor; `spacing_factor = 0` would raise `ZeroDivisionError` in Python and is
outside every claim.) -/
def num_points (start_point end_point : ℚ × ℚ) (spacing_factor : ℚ) : ℕ :=
  max 1 (isqrt ⌊sq_dist start_point end_point / spacing_factor ^ 2⌋₊)

/-- Lines 48–52: the inner loop `for j in range(1, num_points)` producing the
interpolated interior points of one segment, each coordinate rounded to six
decimal places. -/
def intermediate_points (start_point end_point : ℚ × ℚ) (spacing_factor : ℚ) :
    List (ℚ × ℚ) :=
  let n := num_points start_point end_point spacing_factor
  (List.range' 1 (n - 1)).map (fun (j : ℕ) =>
    (round6 (start_point.1 + ((j : ℚ) / (n : ℚ)) * (end_point.1 - start_point.1)),
     round6 (start_point.2 + ((j : ℚ) / (n : ℚ)) * (end_point.2 - start_point.2))))

/-- `evenly_space_coordinates` (lines 18–61), transcribed clause by clause:
the `len < 2` early return, the loop over `i in range(len - 1)` appending the
interpolated points of segment `i` and then the segment's endpoint except on
the final iteration, and the final append of `coordinates[-1]`. -/
def evenly_space_coordinates (coordinates : List (ℚ × ℚ))
    (spacing_factor : ℚ) : List (ℚ × ℚ) :=
  if coordinates.length < 2 then coordinates
  else
    ((List.range (coordinates.length - 1)).foldl
      (fun result i =>
        let start_point := coordinates.getD i (0, 0)
        let end_point := coordinates.getD (i + 1) (0, 0)
        let result := result ++ intermediate_points start_point end_point spacing_factor
        if i < coordinates.length - 2 then result ++ [end_point] else result)
      [coordinates.getD 0 (0, 0)])
    ++ [coordinates.getD (coordinates.length - 1) (0, 0)]

/-- What one iteration of the densification loop appends for segment `i`. -/
def seg_piece (coordinates : List (ℚ × ℚ)) (spacing_factor : ℚ) (i : ℕ) :
    List (ℚ × ℚ) :=
  intermediate_points (coordinates.getD i (0, 0)) (coordinates.getD (i + 1) (0, 0))
      spacing_factor
    ++ (if i < coordinates.length - 2 then [coordinates.getD (i + 1) (0, 0)] else [])

/-- Structural form of the densification loop: the densified route is the
head vertex followed, for each segment, by its interpolated points and its
end vertex.  `evenly_space_eq_walk` proves it equal to the indexed loop. -/
def walk (spacing_factor : ℚ) : ℚ × ℚ → List (ℚ × ℚ) → List (ℚ × ℚ)
  | p, [] => [p]
  | p, q :: rest =>
      p :: (intermediate_points p q spacing_factor ++ walk spacing_factor q rest)

/-- The unrounded linear interpolant at `j/n` of a segment. -/
def interp_exact (p q : ℚ × ℚ) (n : ℕ) (j : ℕ) : ℚ × ℚ :=
  (p.1 + ((j : ℚ) / (n : ℚ)) * (q.1 - p.1),
   p.2 + ((j : ℚ) / (n : ℚ)) * (q.2 - p.2))

/-- The `j`-th point of the chain a single segment contributes to the output:
the start vertex at `j = 0`, the end vertex at `j = n`, the rounded
interpolant in between. -/
def chain_pt (p q : ℚ × ℚ) (s : ℚ) (j : ℕ) : ℚ × ℚ :=
  if j = 0 then p
  else if j = num_points p q s then q
  else (round6 (interp_exact p q (num_points p q s) j).1,
        round6 (interp_exact p q (num_points p q s) j).2)

/-- Modelled from the spec: `n = max(1, floor(d / spacingFactor))` of §4.1,
with `d` the (real) Euclidean distance of the segment. -/
noncomputable def spec_num (A B : ℚ × ℚ) (s : ℚ) : ℕ :=
  max 1 (⌊Real.sqrt ((sq_dist A B : ℚ) : ℝ) / (s : ℝ)⌋).toNat

/-- Modelled from the spec: the `n - 1` linear interpolants at ratios `j/n`,
`j = 1..n-1`, of §4.1, each coordinate rounded to 6 decimal places. -/
noncomputable def spec_interp (A B : ℚ × ℚ) (s : ℚ) : List (ℚ × ℚ) :=
  (List.range' 1 (spec_num A B s - 1)).map (fun (j : ℕ) =>
    (round6 (A.1 + ((j : ℚ) / (spec_num A B s : ℚ)) * (B.1 - A.1)),
     round6 (A.2 + ((j : ℚ) / (spec_num A B s : ℚ)) * (B.2 - A.2))))

/-- Modelled from the spec, §4.1 `densify`: the first point of the route is
emitted once at the start; each consecutive pair `(A, B)` contributes its
`n - 1` interpolants and then `B` itself, emitted only once, after the last
segment ending at it; a route with fewer than 2 points is returned
unchanged. -/
noncomputable def densify_spec (route : List (ℚ × ℚ)) (s : ℚ) : List (ℚ × ℚ) :=
  if route.length < 2 then route
  else
    route.getD 0 (0, 0) ::
      ((route.zip route.tail).map (fun AB => spec_interp AB.1 AB.2 s ++ [AB.2])).flatten

/-- Line 96: `COORDINATE_TOLERANCE = 0.0005`. -/
def COORDINATE_TOLERANCE : ℚ := 5 / 10000

/-- `_is_near_waypoint` (lines 172–176).  The source reads the module
constant `COORDINATE_TOLERANCE`; the tolerance is taken as a parameter here
(the spec's `arrivalTolerance`), instantiated with the constant by the
simulator loop below. -/
def is_near_waypoint (current_position waypoint : ℚ × ℚ) (tolerance : ℚ) : Bool :=
  decide (|current_position.1 - waypoint.1| < tolerance) &&
  decide (|current_position.2 - waypoint.2| < tolerance)

/-- The bin-matching loop of `drive_route` (lines 219–226): scan the stops in
order, stopping (`break`) at the first one near the current position; `idx`
is the running `enumerate` counter. -/
def find_bin_index (coords : ℚ × ℚ) (tolerance : ℚ) :
    List (ℚ × ℚ) → ℕ → Option ℕ
  | [], _ => none
  | b :: rest, idx =>
      if is_near_waypoint coords b tolerance then some idx
      else find_bin_index coords tolerance rest (idx + 1)

/-- The headers dict built in `__init__` (lines 124–127). -/
structure Headers where
  content_type : String
  authorization : Option String
deriving DecidableEq

/-- The `DriverSimulator` object state (lines 104–130). -/
structure DriverSimulator where
  base_url : String
  token : Option String
  speed : ℚ
  pause_time : ℚ
  headers : Headers
deriving DecidableEq

/-- `DriverSimulator.__init__` (lines 105–130): it only stores its arguments
and builds the headers dict; it performs no validation of `speed` (or of
anything else) and has no failure path — any speed, including `0` and
negative values, is accepted. -/
def DriverSimulator.init (base_url : String) (token : Option String)
    (speed : ℚ) (pause_time : ℚ) : DriverSimulator :=
  { base_url := base_url
    token := token
    speed := speed
    pause_time := pause_time
    headers :=
      { content_type := "application/json"
        authorization := token.map (fun t => "Bearer " ++ t) } }

/-- The per-step sleep of `drive_route` (line 247), `sleep_time = 1.0 / self.speed`:
`none` models the `ZeroDivisionError` raised when `speed = 0`. -/
def DriverSimulator.sleep_time (sim : DriverSimulator) : Option ℚ :=
  if sim.speed = 0 then none else some (1 / sim.speed)

/-- What `update_location` returns: the parsed response body on success, or
the literal `{"error": str(e)}` dictionary built in the `except` branch. -/
inductive LocationResponse where
  | json (body : String)
  | error_dict (error : String)
deriving DecidableEq

/-- `update_location` (lines 178–203).  The collaborator `post` models
`requests.post` + `raise_for_status` + `.json()`; every collaborator failure
(`RequestException`) is caught and turned into the `{"error": ...}` return
value — this function never propagates an exception. -/
def update_location (post : ℚ → ℚ → Except String String)
    (longitude latitude : ℚ) : LocationResponse :=
  match post longitude latitude with
  | Except.ok body => LocationResponse.json body
  | Except.error e => LocationResponse.error_dict e

/-- One iteration of the `drive_route` loop: which point was processed, what
the bin check found, what `update_location` returned, and the inter-step
sleep performed afterwards (`none` for the final point). -/
structure Step where
  index : ℕ
  position : ℚ × ℚ
  bin_index : Option ℕ
  response : LocationResponse
  slept : Option ℚ
deriving DecidableEq

instance : Inhabited Step :=
  ⟨{ index := 0, position := (0, 0), bin_index := none
     response := LocationResponse.json "", slept := none }⟩

/-- The `drive_route` loop (lines 214–248) from position `i` of the route:
per point, check the bins, call `update_location` (whose failures never
propagate), pause at a matched bin, then — only when more points remain
(`i < len - 1`) — sleep `1.0 / speed`.  With `speed ≤ 0` that line raises
(`ZeroDivisionError` for `0`, `ValueError` from `time.sleep` on a negative
interval), which aborts the run: the second component records whether the
loop ran to completion.  The `post` collaborator is indexed by the step
number so that per-step failures can be expressed.  (The pause at a bin,
`time.sleep(pause_time)`, is recorded via `bin_index`; the preliminary
`reset_bin_fill_levels` call catches all its request errors and performs no
position report, so it is not modelled.) -/
def drive_route_from (post : ℕ → ℚ → ℚ → Except String String)
    (bins : List (ℚ × ℚ)) (speed : ℚ) :
    ℕ → List (ℚ × ℚ) → List Step × Bool
  | _, [] => ([], true)
  | i, coords :: rest =>
      let bi := find_bin_index coords COORDINATE_TOLERANCE bins 0
      let resp := update_location (post i) coords.1 coords.2
      match rest with
      | [] =>
          ([{ index := i, position := coords, bin_index := bi,
              response := resp, slept := none }], true)
      | r :: rs =>
          if 0 < speed then
            let tl := drive_route_from post bins speed (i + 1) (r :: rs)
            ({ index := i, position := coords, bin_index := bi,
               response := resp, slept := some (1 / speed) } :: tl.1, tl.2)
          else
            ([{ index := i, position := coords, bin_index := bi,
                response := resp, slept := none }], false)

/-- `drive_route` (lines 205–250) over a given route and bin list (the source
reads the module constants `ROUTE_COORDINATES` / `BIN_COORDINATES`). -/
def drive_route (sim : DriverSimulator)
    (post : ℕ → ℚ → ℚ → Except String String)
    (route bins : List (ℚ × ℚ)) : List Step × Bool :=
  drive_route_from post bins sim.speed 0 route

/-! ### Basic numeric lemmas -/

theorem isqrt_below_sq_le (n : ℕ) : ∀ k, isqrt_below k n * isqrt_below k n ≤ n
  | 0 => by simp [isqrt_below]
  | k + 1 => by
      unfold isqrt_below
      split
      · assumption
      · exact isqrt_below_sq_le n k

theorem isqrt_below_max (n : ℕ) :
    ∀ k j, j ≤ k → j * j ≤ n → j ≤ isqrt_below k n
  | 0, j, hj, _ => by simpa [isqrt_below] using hj
  | k + 1, j, hj, hjj => by
      unfold isqrt_below
      split
      · exact hj
      · next h =>
          rcases Nat.lt_or_ge j (k + 1) with h' | h'
          · exact isqrt_below_max n k j (Nat.lt_succ_iff.mp h') hjj
          · exact absurd (Nat.le_trans (Nat.mul_le_mul h' h') hjj) h

theorem isqrt_eq_sqrt (n : ℕ) : isqrt n = Nat.sqrt n := by
  refine Nat.le_antisymm ?_ ?_
  · exact Nat.le_sqrt.mpr (isqrt_below_sq_le n n)
  · exact isqrt_below_max n n (Nat.sqrt n) (Nat.sqrt_le_self n) (Nat.sqrt_le n)

theorem sq_dist_nonneg (p q : ℚ × ℚ) : 0 ≤ sq_dist p q :=
  add_nonneg (sq_nonneg _) (sq_nonneg _)

theorem num_points_pos (p q : ℚ × ℚ) (s : ℚ) : 1 ≤ num_points p q s :=
  le_max_left _ _

theorem round_half_even_close (y : ℚ) : |(round_half_even y : ℚ) - y| ≤ 1 / 2 := by
  have h1 : (⌊y⌋ : ℚ) ≤ y := Int.floor_le y
  have h2 : y < ⌊y⌋ + 1 := Int.lt_floor_add_one y
  unfold round_half_even
  split
  · next h => rw [abs_le]; constructor <;> linarith
  · split
    · next h h' => rw [abs_le]; push_cast; constructor <;> linarith
    · next h h' =>
        have h3 : y - ⌊y⌋ = 1 / 2 := le_antisymm (not_lt.mp h') (not_lt.mp h)
        split
        · rw [abs_le]; constructor <;> linarith
        · rw [abs_le]; push_cast; constructor <;> linarith

theorem round6_close (x : ℚ) : |round6 x - x| ≤ 1 / 2000000 := by
  have h := round_half_even_close (x * 1000000)
  unfold round6
  have hx : (round_half_even (x * 1000000) : ℚ) / 1000000 - x
      = ((round_half_even (x * 1000000) : ℚ) - x * 1000000) / 1000000 := by
    ring
  rw [hx, abs_div, abs_of_pos (by norm_num : (0:ℚ) < 1000000)]
  rw [div_le_iff₀ (by norm_num : (0:ℚ) < 1000000)]
  linarith

theorem nat_floor_real_sqrt (x : ℝ) (hx : 0 ≤ x) :
    ⌊Real.sqrt x⌋₊ = Nat.sqrt ⌊x⌋₊ := by
  rw [Nat.floor_eq_iff (Real.sqrt_nonneg x)]
  constructor
  · rw [Real.le_sqrt (by positivity) hx]
    calc ((Nat.sqrt ⌊x⌋₊ : ℝ)) ^ 2 = ((Nat.sqrt ⌊x⌋₊ * Nat.sqrt ⌊x⌋₊ : ℕ) : ℝ) := by
          push_cast; ring
      _ ≤ ((⌊x⌋₊ : ℕ) : ℝ) := by exact_mod_cast Nat.sqrt_le _
      _ ≤ x := Nat.floor_le hx
  · rw [Real.sqrt_lt' (by positivity)]
    calc x < ⌊x⌋₊ + 1 := Nat.lt_floor_add_one x
      _ ≤ ((Nat.sqrt ⌊x⌋₊ + 1) * (Nat.sqrt ⌊x⌋₊ + 1) : ℕ) := by
          exact_mod_cast Nat.lt_succ_sqrt ⌊x⌋₊
      _ = ((Nat.sqrt ⌊x⌋₊ : ℝ) + 1) ^ 2 := by push_cast; ring

/-- Faithfulness of the executable `num_points` to the source's
`max(1, int(math.sqrt(dx^2 + dy^2) / spacing_factor))`: for a positive
spacing factor the two agree. -/
theorem num_points_eq_real_floor (A B : ℚ × ℚ) (s : ℚ) (hs : 0 < s) :
    spec_num A B s = num_points A B s := by
  unfold spec_num num_points
  have hd : (0 : ℚ) ≤ sq_dist A B := sq_dist_nonneg A B
  have hdR : (0 : ℝ) ≤ ((sq_dist A B : ℚ) : ℝ) := by exact_mod_cast hd
  have hsR : (0 : ℝ) < ((s : ℚ) : ℝ) := by exact_mod_cast hs
  have h1 : Real.sqrt ((sq_dist A B : ℚ) : ℝ) / ((s : ℚ) : ℝ)
      = Real.sqrt (((sq_dist A B : ℚ) : ℝ) / ((s : ℚ) : ℝ) ^ 2) := by
    rw [Real.sqrt_div hdR, Real.sqrt_sq hsR.le]
  rw [h1, Int.floor_toNat, nat_floor_real_sqrt _ (by positivity)]
  have h2 : (((sq_dist A B : ℚ) : ℝ) / ((s : ℚ) : ℝ) ^ 2)
      = ((sq_dist A B / s ^ 2 : ℚ) : ℝ) := by push_cast; ring
  rw [h2]
  have h3 : ⌊((sq_dist A B / s ^ 2 : ℚ) : ℝ)⌋₊ = ⌊(sq_dist A B / s ^ 2 : ℚ)⌋₊ := by
    rw [← Int.floor_toNat, ← Int.floor_toNat, Rat.floor_cast]
  rw [h3, isqrt_eq_sqrt]

/-- The densification spacing bound: the squared segment length is strictly
below `(2 * s * n)^2` for `n = num_points`, because the source floors the
ratio `d / s` instead of taking its ceiling. -/
theorem sq_dist_lt_bound (p q : ℚ × ℚ) (s : ℚ) (hs : 0 < s) :
    sq_dist p q < 4 * s ^ 2 * (num_points p q s : ℚ) ^ 2 := by
  have hd : (0 : ℚ) ≤ sq_dist p q := sq_dist_nonneg p q
  have hs2 : (0 : ℚ) < s ^ 2 := by positivity
  set m : ℕ := ⌊sq_dist p q / s ^ 2⌋₊ with hm
  have h1 : sq_dist p q / s ^ 2 < m + 1 := Nat.lt_floor_add_one _
  have h2 : m < (Nat.sqrt m + 1) * (Nat.sqrt m + 1) := Nat.lt_succ_sqrt m
  have hn : num_points p q s = max 1 (Nat.sqrt m) := by
    rw [num_points, isqrt_eq_sqrt]
  have h3 : Nat.sqrt m + 1 ≤ 2 * max 1 (Nat.sqrt m) := by
    rcases Nat.eq_zero_or_pos (Nat.sqrt m) with h | h
    · simp [h]
    · omega
  have h4 : sq_dist p q < (m + 1 : ℚ) * s ^ 2 := by
    rw [div_lt_iff₀ hs2] at h1
    linarith
  have h5 : ((m : ℚ) + 1) ≤ ((Nat.sqrt m + 1) * (Nat.sqrt m + 1) : ℕ) := by
    exact_mod_cast h2
  have h6 : (((Nat.sqrt m + 1) * (Nat.sqrt m + 1) : ℕ) : ℚ)
      ≤ ((2 * max 1 (Nat.sqrt m)) * (2 * max 1 (Nat.sqrt m)) : ℕ) := by
    exact_mod_cast Nat.mul_le_mul h3 h3
  rw [hn]
  have h7 : (((2 * max 1 (Nat.sqrt m)) * (2 * max 1 (Nat.sqrt m)) : ℕ) : ℚ)
      = 4 * ((max 1 (Nat.sqrt m) : ℕ) : ℚ) ^ 2 := by push_cast; ring
  nlinarith [h5, h6, h7, hs2]

/-! ### The indexed densification loop versus its structural form -/

theorem step_eq (coordinates : List (ℚ × ℚ)) (s : ℚ) :
    (fun (result : List (ℚ × ℚ)) (i : ℕ) =>
      let start_point := coordinates.getD i (0, 0)
      let end_point := coordinates.getD (i + 1) (0, 0)
      let result := result ++ intermediate_points start_point end_point s
      if i < coordinates.length - 2 then result ++ [end_point] else result)
    = fun result i => result ++ seg_piece coordinates s i := by
  funext result i
  by_cases h : i < coordinates.length - 2 <;> simp [seg_piece, h]

theorem foldl_append_eq {α : Type} (g : ℕ → List α) :
    ∀ (l : List ℕ) (init : List α),
      l.foldl (fun acc i => acc ++ g i) init = init ++ (l.map g).flatten
  | [], init => by simp
  | a :: t, init => by
      simp only [List.foldl_cons, List.map_cons, List.flatten_cons]
      rw [foldl_append_eq g t (init ++ g a), List.append_assoc]

theorem seg_piece_cons (x : ℚ × ℚ) (l : List (ℚ × ℚ)) (s : ℚ) (i : ℕ) :
    seg_piece (x :: l) s (i + 1) = seg_piece l s i := by
  simp only [seg_piece, List.getD_cons_succ, List.length_cons]
  congr 1
  exact if_congr (by omega) rfl rfl

theorem range_join_eq_walk (s : ℚ) :
    ∀ (rest : List (ℚ × ℚ)) (p q : ℚ × ℚ),
      [p] ++ (((List.range ((p :: q :: rest).length - 1)).map
            (seg_piece (p :: q :: rest) s)).flatten
          ++ [(p :: q :: rest).getD ((p :: q :: rest).length - 1) (0, 0)])
        = walk s p (q :: rest)
  | [], p, q => by
      simp [walk, seg_piece, List.range_succ]
  | r :: rest', p, q => by
      have hcomp : (seg_piece (p :: q :: r :: rest') s ∘ Nat.succ)
          = seg_piece (q :: r :: rest') s :=
        funext fun i => seg_piece_cons p (q :: r :: rest') s i
      have hlen : (p :: q :: r :: rest').length - 1 = (rest'.length + 1) + 1 := by
        simp
      rw [hlen, List.range_succ_eq_map]
      simp only [List.map_cons, List.map_map, hcomp, List.flatten_cons]
      have hseg0 : seg_piece (p :: q :: r :: rest') s 0
          = intermediate_points p q s ++ [q] := by
        simp [seg_piece]
      rw [hseg0]
      have hlast : (p :: q :: r :: rest').getD ((rest'.length + 1) + 1) (0, 0)
          = (q :: r :: rest').getD ((q :: r :: rest').length - 1) (0, 0) := by
        simp [List.getD_cons_succ]
      rw [hlast]
      have hlen2 : rest'.length + 1 = (q :: r :: rest').length - 1 := by simp
      rw [hlen2, show walk s p (q :: r :: rest')
          = p :: (intermediate_points p q s ++ walk s q (r :: rest')) from rfl]
      rw [← range_join_eq_walk s rest' q r]
      simp [List.append_assoc]

theorem evenly_space_eq_walk (p q : ℚ × ℚ) (rest : List (ℚ × ℚ)) (s : ℚ) :
    evenly_space_coordinates (p :: q :: rest) s = walk s p (q :: rest) := by
  rw [evenly_space_coordinates, if_neg (by simp), step_eq, foldl_append_eq]
  rw [List.append_assoc, show (p :: q :: rest).getD 0 (0, 0) = p from rfl,
    range_join_eq_walk]

theorem walk_ne_nil (s : ℚ) (p : ℚ × ℚ) (l : List (ℚ × ℚ)) : walk s p l ≠ [] := by
  cases l <;> simp [walk]

theorem walk_head_cons (s : ℚ) (p : ℚ × ℚ) (l : List (ℚ × ℚ)) :
    ∃ t, walk s p l = p :: t := by
  cases l with
  | nil => exact ⟨[], rfl⟩
  | cons q rest => exact ⟨_, rfl⟩

theorem walk_getLast? (s : ℚ) :
    ∀ (l : List (ℚ × ℚ)) (p : ℚ × ℚ), (walk s p l).getLast? = (p :: l).getLast?
  | [], _ => rfl
  | q :: rest, p => by
      have ih := walk_getLast? s rest q
      have hx : ∃ x, (q :: rest).getLast? = some x := by
        cases h : (q :: rest).getLast? with
        | none => exact absurd (List.getLast?_eq_none_iff.mp h) (by simp)
        | some x => exact ⟨x, rfl⟩
      obtain ⟨x, hx⟩ := hx
      rw [show walk s p (q :: rest)
          = (p :: intermediate_points p q s) ++ walk s q rest from rfl]
      rw [List.getLast?_append, ih, hx, List.getLast?_cons_cons, hx]
      rfl

theorem walk_sublist (s : ℚ) :
    ∀ (l : List (ℚ × ℚ)) (p : ℚ × ℚ), List.Sublist (p :: l) (walk s p l)
  | [], p => by simp [walk]
  | q :: rest, p => by
      rw [show walk s p (q :: rest)
          = p :: (intermediate_points p q s ++ walk s q rest) from rfl]
      exact List.Sublist.cons₂ p
        ((walk_sublist s rest q).trans (List.sublist_append_right _ _))

theorem walk_mem (s : ℚ) :
    ∀ (l : List (ℚ × ℚ)) (p x : ℚ × ℚ), x ∈ walk s p l →
      x ∈ p :: l ∨ ∃ a b : ℚ, x = (round6 a, round6 b)
  | [], p, x, hx => Or.inl (by simpa [walk] using hx)
  | q :: rest, p, x, hx => by
      rw [show walk s p (q :: rest)
          = p :: (intermediate_points p q s ++ walk s q rest) from rfl] at hx
      rcases List.mem_cons.mp hx with h | h
      · exact Or.inl (by simp [h])
      · rcases List.mem_append.mp h with h | h
        · simp only [intermediate_points, List.mem_map] at h
          obtain ⟨j, _, hj⟩ := h
          exact Or.inr ⟨_, _, hj.symm⟩
        · rcases walk_mem s rest q x h with h | h
          · exact Or.inl (by simp [List.mem_cons.mp h, List.mem_cons])
          · exact Or.inr h

/-! ### Spacing bound along one densified segment -/

theorem interp_exact_zero (p q : ℚ × ℚ) (n : ℕ) : interp_exact p q n 0 = p := by
  unfold interp_exact
  simp

theorem interp_exact_last (p q : ℚ × ℚ) (n : ℕ) (hn : n ≠ 0) :
    interp_exact p q n n = q := by
  have h : ((n : ℚ) / (n : ℚ)) = 1 := div_self (Nat.cast_ne_zero.mpr hn)
  unfold interp_exact
  rw [h]
  exact Prod.ext (by ring) (by ring)

theorem chain_pt_close (p q : ℚ × ℚ) (s : ℚ) (j : ℕ) :
    |(chain_pt p q s j).1 - (interp_exact p q (num_points p q s) j).1| ≤ 1 / 2000000 ∧
    |(chain_pt p q s j).2 - (interp_exact p q (num_points p q s) j).2| ≤ 1 / 2000000 := by
  unfold chain_pt
  split
  · next h =>
      subst h
      rw [interp_exact_zero]
      norm_num
  · split
    · next h h' =>
        rw [h', interp_exact_last p q _ (by
          have := num_points_pos p q s
          omega)]
        norm_num
    · exact ⟨round6_close _, round6_close _⟩

theorem interp_exact_diff (p q : ℚ × ℚ) (n : ℕ) (j : ℕ) :
    (interp_exact p q n (j + 1)).1 - (interp_exact p q n j).1
        = (q.1 - p.1) / (n : ℚ) ∧
    (interp_exact p q n (j + 1)).2 - (interp_exact p q n j).2
        = (q.2 - p.2) / (n : ℚ) := by
  unfold interp_exact
  constructor <;> (push_cast; ring)

theorem chain_pair_bound (p q : ℚ × ℚ) (s : ℚ) (hs : 0 < s) (j : ℕ)
    (_hj : j < num_points p q s) :
    sq_dist (chain_pt p q s j) (chain_pt p q s (j + 1))
      < (2 * s + 1 / 500000) ^ 2 := by
  have hn1 : 1 ≤ num_points p q s := num_points_pos p q s
  have hn0 : ((num_points p q s : ℚ)) ≠ 0 := Nat.cast_ne_zero.mpr (by omega)
  have hn2 : (0 : ℚ) < (num_points p q s : ℚ) ^ 2 := by positivity
  set dx : ℚ := (q.1 - p.1) / (num_points p q s : ℚ) with hdx
  set dy : ℚ := (q.2 - p.2) / (num_points p q s : ℚ) with hdy
  have hdd : dx ^ 2 + dy ^ 2 < 4 * s ^ 2 := by
    have h1 : dx ^ 2 + dy ^ 2 = sq_dist p q / (num_points p q s : ℚ) ^ 2 := by
      rw [hdx, hdy, sq_dist]
      field_simp
    rw [h1, div_lt_iff₀ hn2]
    calc sq_dist p q < 4 * s ^ 2 * (num_points p q s : ℚ) ^ 2 :=
          sq_dist_lt_bound p q s hs
      _ = 4 * s ^ 2 * (num_points p q s : ℚ) ^ 2 := rfl
  have hdxlt : |dx| < 2 * s := by
    refine lt_of_pow_lt_pow_left₀ 2 (by linarith) ?_
    rw [sq_abs]
    nlinarith [sq_nonneg dy]
  have hdylt : |dy| < 2 * s := by
    refine lt_of_pow_lt_pow_left₀ 2 (by linarith) ?_
    rw [sq_abs]
    nlinarith [sq_nonneg dx]
  have hcj := chain_pt_close p q s j
  have hcj1 := chain_pt_close p q s (j + 1)
  have hdiff := interp_exact_diff p q (num_points p q s) j
  set a : ℚ := (chain_pt p q s (j + 1)).1 - (chain_pt p q s j).1 with ha
  set b : ℚ := (chain_pt p q s (j + 1)).2 - (chain_pt p q s j).2 with hb
  have haa : |a - dx| ≤ 1 / 1000000 := by
    have h : a - dx
        = ((chain_pt p q s (j + 1)).1 - (interp_exact p q (num_points p q s) (j + 1)).1)
          - ((chain_pt p q s j).1 - (interp_exact p q (num_points p q s) j).1) := by
      rw [ha, hdx, ← hdiff.1]
      ring
    rw [h]
    calc |_ - _| ≤ |(chain_pt p q s (j + 1)).1 - (interp_exact p q (num_points p q s) (j + 1)).1|
          + |(chain_pt p q s j).1 - (interp_exact p q (num_points p q s) j).1| := abs_sub _ _
      _ ≤ 1 / 2000000 + 1 / 2000000 := add_le_add hcj1.1 hcj.1
      _ = 1 / 1000000 := by norm_num
  have hbb : |b - dy| ≤ 1 / 1000000 := by
    have h : b - dy
        = ((chain_pt p q s (j + 1)).2 - (interp_exact p q (num_points p q s) (j + 1)).2)
          - ((chain_pt p q s j).2 - (interp_exact p q (num_points p q s) j).2) := by
      rw [hb, hdy, ← hdiff.2]
      ring
    rw [h]
    calc |_ - _| ≤ _ + _ := abs_sub _ _
      _ ≤ 1 / 2000000 + 1 / 2000000 := add_le_add hcj1.2 hcj.2
      _ = 1 / 1000000 := by norm_num
  have habs_a : |a| ≤ |dx| + 1 / 1000000 := by
    calc |a| = |dx + (a - dx)| := by ring_nf
      _ ≤ |dx| + |a - dx| := abs_add _ _
      _ ≤ |dx| + 1 / 1000000 := by linarith
  have habs_b : |b| ≤ |dy| + 1 / 1000000 := by
    calc |b| = |dy + (b - dy)| := by ring_nf
      _ ≤ |dy| + |b - dy| := abs_add _ _
      _ ≤ |dy| + 1 / 1000000 := by linarith
  have ha2 : a ^ 2 ≤ dx ^ 2 + 2 * (1 / 1000000) * |dx| + (1 / 1000000) ^ 2 := by
    calc a ^ 2 = |a| ^ 2 := (sq_abs a).symm
      _ ≤ (|dx| + 1 / 1000000) ^ 2 :=
          pow_le_pow_left₀ (abs_nonneg a) habs_a 2
      _ = dx ^ 2 + 2 * (1 / 1000000) * |dx| + (1 / 1000000) ^ 2 := by
          rw [← sq_abs dx]; ring
  have hb2 : b ^ 2 ≤ dy ^ 2 + 2 * (1 / 1000000) * |dy| + (1 / 1000000) ^ 2 := by
    calc b ^ 2 = |b| ^ 2 := (sq_abs b).symm
      _ ≤ (|dy| + 1 / 1000000) ^ 2 :=
          pow_le_pow_left₀ (abs_nonneg b) habs_b 2
      _ = dy ^ 2 + 2 * (1 / 1000000) * |dy| + (1 / 1000000) ^ 2 := by
          rw [← sq_abs dy]; ring
  have hgoal : sq_dist (chain_pt p q s j) (chain_pt p q s (j + 1)) = a ^ 2 + b ^ 2 := by
    rw [sq_dist, ha, hb]
  rw [hgoal]
  have hexp : (2 * s + 1 / 500000) ^ 2
      = 4 * s ^ 2 + (1 / 125000) * s + (1 / 500000) ^ 2 := by ring
  rw [hexp]
  linarith [ha2, hb2, hdxlt, hdylt, hdd, abs_nonneg dx, abs_nonneg dy]

theorem seg_eq_map (p q : ℚ × ℚ) (s : ℚ) :
    p :: intermediate_points p q s ++ [q]
      = (List.range (num_points p q s + 1)).map (chain_pt p q s) := by
  have hn1 : 1 ≤ num_points p q s := num_points_pos p q s
  rw [List.range_succ, List.map_append]
  have hlast : chain_pt p q s (num_points p q s) = q := by
    unfold chain_pt
    rw [if_neg (by omega), if_pos rfl]
  have hrange : List.range (num_points p q s)
      = 0 :: List.range' 1 (num_points p q s - 1) := by
    obtain ⟨m, hm⟩ : ∃ m, num_points p q s = m + 1 := ⟨num_points p q s - 1, by omega⟩
    rw [hm, List.range_eq_range', List.range'_succ]
    simp
  rw [hrange]
  simp only [List.map_cons, List.map_nil, List.cons_append]
  have h0 : chain_pt p q s 0 = p := by
    unfold chain_pt
    rw [if_pos rfl]
  rw [h0, hlast]
  congr 1
  congr 1
  unfold intermediate_points
  refine List.map_congr_left ?_
  intro j hj
  rw [List.mem_range'_1] at hj
  unfold chain_pt
  rw [if_neg (by omega), if_neg (by omega)]
  rfl

theorem chain_segment (p q : ℚ × ℚ) (s : ℚ) (hs : 0 < s) :
    List.Chain' (fun P Q => sq_dist P Q < (2 * s + 1 / 500000) ^ 2)
      (p :: intermediate_points p q s ++ [q]) := by
  rw [seg_eq_map, List.chain'_map, List.chain'_range_succ]
  intro m hm
  exact chain_pair_bound p q s hs m hm

theorem walk_chain' (s : ℚ) (hs : 0 < s) :
    ∀ (l : List (ℚ × ℚ)) (p : ℚ × ℚ),
      List.Chain' (fun P Q => sq_dist P Q < (2 * s + 1 / 500000) ^ 2) (walk s p l)
  | [], p => by simp [walk]
  | q :: rest, p => by
      have hseg := chain_segment p q s hs
      have ih := walk_chain' s hs rest q
      rw [show p :: intermediate_points p q s ++ [q]
          = (p :: intermediate_points p q s) ++ [q] from rfl] at hseg
      have hsplit := List.chain'_append.mp hseg
      rw [show walk s p (q :: rest)
          = (p :: intermediate_points p q s) ++ walk s q rest from rfl]
      rw [List.chain'_append]
      refine ⟨hsplit.1, ih, ?_⟩
      intro x hx y hy
      obtain ⟨t, ht⟩ := walk_head_cons s q rest
      rw [ht] at hy
      simp only [List.head?_cons, Option.mem_def, Option.some.injEq] at hy
      subst hy
      exact hsplit.2.2 x hx q (by simp)

/-! ### The source densifier implements the spec's algorithm -/

theorem spec_interp_eq (A B : ℚ × ℚ) (s : ℚ) (hs : 0 < s) :
    spec_interp A B s = intermediate_points A B s := by
  simp only [spec_interp, intermediate_points, num_points_eq_real_floor A B s hs]

theorem spec_join_eq_walk (s : ℚ) (hs : 0 < s) :
    ∀ (l : List (ℚ × ℚ)) (p : ℚ × ℚ), l ≠ [] →
      p :: (((p :: l).zip l).map (fun AB => spec_interp AB.1 AB.2 s ++ [AB.2])).flatten
        = walk s p l
  | [], _, h => absurd rfl h
  | [q], p, _ => by
      simp [walk, spec_interp_eq p q s hs]
  | q :: r :: rest, p, _ => by
      have ih := spec_join_eq_walk s hs (r :: rest) q (by simp)
      rw [show (p :: q :: r :: rest).zip (q :: r :: rest)
          = (p, q) :: (q :: r :: rest).zip (r :: rest) from rfl]
      simp only [List.map_cons, List.flatten_cons]
      rw [spec_interp_eq p q s hs]
      rw [show walk s p (q :: r :: rest)
          = p :: (intermediate_points p q s ++ walk s q (r :: rest)) from rfl]
      rw [← ih]
      simp [List.append_assoc]

theorem densify_spec_eq (route : List (ℚ × ℚ)) (s : ℚ) (hs : 0 < s) :
    evenly_space_coordinates route s = densify_spec route s := by
  match route with
  | [] => rfl
  | [_] => rfl
  | p :: q :: rest =>
      rw [evenly_space_eq_walk, densify_spec, if_neg (by simp)]
      exact (spec_join_eq_walk s hs (q :: rest) p (by simp)).symm

/-! ### The waypoint matcher -/

theorem find_bin_index_ge (pos : ℚ × ℚ) (tol : ℚ) :
    ∀ (l : List (ℚ × ℚ)) (k m : ℕ), find_bin_index pos tol l k = some m → k ≤ m
  | [], _, _, h => by simp [find_bin_index] at h
  | b :: rest, k, m, h => by
      simp only [find_bin_index] at h
      split at h
      · exact (Option.some_inj.mp h) ▸ Nat.le_refl k
      · exact Nat.le_of_succ_le (find_bin_index_ge pos tol rest (k + 1) m h)

theorem find_bin_index_some (pos : ℚ × ℚ) (tol : ℚ) :
    ∀ (l : List (ℚ × ℚ)) (k i : ℕ), find_bin_index pos tol l k = some (k + i) →
      i < l.length ∧ is_near_waypoint pos (l.getD i (0, 0)) tol = true ∧
      ∀ j, j < i → is_near_waypoint pos (l.getD j (0, 0)) tol = false
  | [], _, _, h => by simp [find_bin_index] at h
  | b :: rest, k, i, h => by
      simp only [find_bin_index] at h
      split at h
      · next hb =>
          have hi : i = 0 := by
            have h' := Option.some_inj.mp h
            omega
          subst hi
          exact ⟨by simp, by simpa using hb, fun j hj => absurd hj (by omega)⟩
      · next hb =>
          have hge := find_bin_index_ge pos tol rest (k + 1) (k + i) h
          obtain ⟨i', rfl⟩ : ∃ i', i = i' + 1 := ⟨i - 1, by omega⟩
          have h' : find_bin_index pos tol rest (k + 1) = some ((k + 1) + i') := by
            rw [h]
            congr 1
            omega
          obtain ⟨h1, h2, h3⟩ := find_bin_index_some pos tol rest (k + 1) i' h'
          refine ⟨by simp; omega, by simpa [List.getD_cons_succ] using h2, ?_⟩
          intro j hj
          cases j with
          | zero =>
              simp only [List.getD_cons_zero]
              simpa using hb
          | succ j' =>
              rw [List.getD_cons_succ]
              exact h3 j' (by omega)

theorem find_bin_index_none (pos : ℚ × ℚ) (tol : ℚ) :
    ∀ (l : List (ℚ × ℚ)) (k : ℕ),
      find_bin_index pos tol l k = none ↔
        ∀ b ∈ l, is_near_waypoint pos b tol = false
  | [], k => by simp [find_bin_index]
  | b :: rest, k => by
      simp only [find_bin_index]
      split
      · next hb =>
          constructor
          · intro h
            exact absurd h (by simp)
          · intro h
            exact absurd (h b (by simp)) (by simp [hb])
      · next hb =>
          rw [find_bin_index_none pos tol rest (k + 1)]
          constructor
          · intro h x hx
            rcases List.mem_cons.mp hx with rfl | hx
            · simpa using hb
            · exact h x hx
          · intro h x hx
            exact h x (List.mem_cons.mpr (Or.inr hx))

/-! ### The simulation loop -/

theorem drive_route_from_spec (post : ℕ → ℚ → ℚ → Except String String)
    (bins : List (ℚ × ℚ)) (speed : ℚ) (hspeed : 0 < speed) :
    ∀ (l : List (ℚ × ℚ)) (i : ℕ),
      (drive_route_from post bins speed i l).2 = true ∧
      (drive_route_from post bins speed i l).1.length = l.length ∧
      ∀ j, j < l.length →
        ((drive_route_from post bins speed i l).1.getD j default).index = i + j ∧
        ((drive_route_from post bins speed i l).1.getD j default).position
            = l.getD j (0, 0) ∧
        ((drive_route_from post bins speed i l).1.getD j default).response
            = update_location (post (i + j)) (l.getD j (0, 0)).1 (l.getD j (0, 0)).2 ∧
        ((drive_route_from post bins speed i l).1.getD j default).bin_index
            = find_bin_index (l.getD j (0, 0)) COORDINATE_TOLERANCE bins 0
  | [], i => by simp [drive_route_from]
  | [c], i => by
      refine ⟨rfl, rfl, ?_⟩
      intro j hj
      have hj0 : j = 0 := by
        simp only [List.length_singleton] at hj
        omega
      subst hj0
      exact ⟨rfl, rfl, rfl, rfl⟩
  | c :: c' :: rest, i => by
      have ih := drive_route_from_spec post bins speed hspeed (c' :: rest) (i + 1)
      rw [show drive_route_from post bins speed i (c :: c' :: rest)
          = ({ index := i, position := c,
               bin_index := find_bin_index c COORDINATE_TOLERANCE bins 0,
               response := update_location (post i) c.1 c.2,
               slept := some (1 / speed) }
              :: (drive_route_from post bins speed (i + 1) (c' :: rest)).1,
             (drive_route_from post bins speed (i + 1) (c' :: rest)).2) from by
        simp [drive_route_from, if_pos hspeed]]
      refine ⟨ih.1, by simp [ih.2.1], ?_⟩
      intro j hj
      cases j with
      | zero => exact ⟨by simp, rfl, rfl, rfl⟩
      | succ j' =>
          have hj' : j' < (c' :: rest).length := by
            simp only [List.length_cons] at hj ⊢
            omega
          have hfields := ih.2.2 j' hj'
          simp only [List.getD_cons_succ]
          refine ⟨?_, hfields.2.1, ?_, hfields.2.2.2⟩
          · rw [hfields.1]
            omega
          · rw [show i + (j' + 1) = (i + 1) + j' from by omega]
            exact hfields.2.2.1

/-! ### Evaluation helpers for concrete routes -/

theorem round6_eq_self (x : ℚ) (m : ℤ) (hm : x * 1000000 = m) : round6 x = x := by
  have hx : x = (m : ℚ) / 1000000 := by
    rw [eq_div_iff (by norm_num : (1000000 : ℚ) ≠ 0)]
    exact hm
  rw [round6, hm, round_half_even, Int.floor_intCast,
    if_pos (by norm_num : (m : ℚ) - m < 1 / 2)]
  exact hx.symm

theorem num_points_self (p : ℚ × ℚ) (s : ℚ) : num_points p p s = 1 := by
  rw [num_points, show sq_dist p p = 0 from by simp [sq_dist], zero_div,
    Nat.floor_zero]
  rfl

theorem intermediate_points_self (p : ℚ × ℚ) (s : ℚ) :
    intermediate_points p p s = [] := by
  simp only [intermediate_points, num_points_self]
  rfl

theorem walk_dup (s : ℚ) (P : ℚ × ℚ) (l₂ : List (ℚ × ℚ)) :
    ∃ t, walk s P (P :: l₂) = P :: P :: t := by
  obtain ⟨t, ht⟩ := walk_head_cons s P l₂
  refine ⟨t, ?_⟩
  rw [show walk s P (P :: l₂)
      = P :: (intermediate_points P P s ++ walk s P l₂) from rfl,
    intermediate_points_self, ht]
  rfl

theorem walk_suffix (s : ℚ) :
    ∀ (l₁ : List (ℚ × ℚ)) (x P : ℚ × ℚ) (l₂ : List (ℚ × ℚ)),
      ∃ u, walk s x (l₁ ++ P :: l₂) = u ++ walk s P l₂
  | [], x, P, l₂ => ⟨x :: intermediate_points x P s, rfl⟩
  | y :: l₁', x, P, l₂ => by
      obtain ⟨u, hu⟩ := walk_suffix s l₁' y P l₂
      refine ⟨x :: intermediate_points x y s ++ u, ?_⟩
      rw [show walk s x ((y :: l₁') ++ P :: l₂)
          = x :: (intermediate_points x y s ++ walk s y (l₁' ++ P :: l₂)) from rfl,
        hu]
      simp [List.append_assoc]

theorem drive_route_from_abort (post : ℕ → ℚ → ℚ → Except String String)
    (bins : List (ℚ × ℚ)) (speed : ℚ) (hspeed : ¬ 0 < speed)
    (c c' : ℚ × ℚ) (rest : List (ℚ × ℚ)) (i : ℕ) :
    drive_route_from post bins speed i (c :: c' :: rest)
      = ([{ index := i, position := c,
            bin_index := find_bin_index c COORDINATE_TOLERANCE bins 0,
            response := update_location (post i) c.1 c.2,
            slept := none }], false) := by
  simp [drive_route_from, if_neg hspeed]

theorem is_near_waypoint_iff (pos wp : ℚ × ℚ) (tol : ℚ) :
    is_near_waypoint pos wp tol = true ↔
      (|pos.1 - wp.1| < tol ∧ |pos.2 - wp.2| < tol) := by
  simp [is_near_waypoint]

theorem getD_mem_of_lt {α : Type} (l : List α) (d : α) (j : ℕ)
    (hj : j < l.length) : l.getD j d ∈ l := by
  rw [List.getD_eq_getElem?_getD, List.getElem?_eq_getElem hj]
  exact List.getElem_mem hj

/-! ### Claims -/

/-- C9 (confirmed): for every route with fewer than 2 points and every
spacing factor, `evenly_space_coordinates` returns its input unchanged; the
short-route branch precedes all arithmetic, so nothing can fail there. -/
theorem densify_short_route_unchanged (coordinates : List (ℚ × ℚ))
    (spacing_factor : ℚ) (h : coordinates.length < 2) :
    evenly_space_coordinates coordinates spacing_factor = coordinates := by
  rw [evenly_space_coordinates, if_pos h]

theorem densify_short_route_unchanged_witness :
    ([((3 : ℚ), (7 : ℚ))] : List (ℚ × ℚ)).length < 2 ∧
    evenly_space_coordinates [((3 : ℚ), (7 : ℚ))] (1 / 10000) = [((3 : ℚ), (7 : ℚ))] :=
  ⟨by simp, densify_short_route_unchanged _ _ (by simp)⟩

/-- C7 (confirmed): for every route with at least 2 points and every positive
spacing factor, the densified route starts with the route's first point and
ends with its last point. -/
theorem densify_preserves_endpoints (coordinates : List (ℚ × ℚ)) (s : ℚ)
    (_hs : 0 < s) (h2 : 2 ≤ coordinates.length) :
    (evenly_space_coordinates coordinates s).head? = coordinates.head? ∧
    (evenly_space_coordinates coordinates s).getLast? = coordinates.getLast? := by
  cases coordinates with
  | nil => simp at h2
  | cons p t =>
      cases t with
      | nil => simp at h2
      | cons q rest =>
          rw [evenly_space_eq_walk]
          constructor
          · obtain ⟨u, hu⟩ := walk_head_cons s p (q :: rest)
            rw [hu]
            rfl
          · exact walk_getLast? s (q :: rest) p

theorem densify_preserves_endpoints_witness :
    (0 : ℚ) < 1 ∧ 2 ≤ ([((0 : ℚ), (0 : ℚ)), (5, 7)] : List (ℚ × ℚ)).length ∧
    ((evenly_space_coordinates [((0 : ℚ), (0 : ℚ)), (5, 7)] 1).head?
        = ([((0 : ℚ), (0 : ℚ)), (5, 7)] : List (ℚ × ℚ)).head? ∧
      (evenly_space_coordinates [((0 : ℚ), (0 : ℚ)), (5, 7)] 1).getLast?
        = ([((0 : ℚ), (0 : ℚ)), (5, 7)] : List (ℚ × ℚ)).getLast?) :=
  ⟨by norm_num, by simp, densify_preserves_endpoints _ _ (by norm_num) (by simp)⟩

/-- C10 (confirmed): every original vertex appears in the densified output
verbatim and in order (the route is a sublist of the output — so a vertex
with more than 6 decimal places passes through unrounded), and the 6-decimal
rounding only ever produces the interpolated points: every output point is
an input vertex or a rounded pair. -/
theorem densify_vertices_verbatim (coordinates : List (ℚ × ℚ)) (s : ℚ)
    (_hs : 0 < s) (h2 : 2 ≤ coordinates.length) :
    List.Sublist coordinates (evenly_space_coordinates coordinates s) ∧
    ∀ x ∈ evenly_space_coordinates coordinates s,
      x ∈ coordinates ∨ ∃ a b : ℚ, x = (round6 a, round6 b) := by
  cases coordinates with
  | nil => simp at h2
  | cons p t =>
      cases t with
      | nil => simp at h2
      | cons q rest =>
          rw [evenly_space_eq_walk]
          exact ⟨walk_sublist s (q :: rest) p, fun x hx => walk_mem s (q :: rest) p x hx⟩

theorem densify_vertices_verbatim_witness :
    (0 : ℚ) < 1 ∧ 2 ≤ ([((1 / 10000000 : ℚ), (0 : ℚ)), (1, 1)] : List (ℚ × ℚ)).length ∧
    (List.Sublist [((1 / 10000000 : ℚ), (0 : ℚ)), (1, 1)]
        (evenly_space_coordinates [((1 / 10000000 : ℚ), (0 : ℚ)), (1, 1)] 1) ∧
      ∀ x ∈ evenly_space_coordinates [((1 / 10000000 : ℚ), (0 : ℚ)), (1, 1)] 1,
        x ∈ ([((1 / 10000000 : ℚ), (0 : ℚ)), (1, 1)] : List (ℚ × ℚ)) ∨
          ∃ a b : ℚ, x = (round6 a, round6 b)) :=
  ⟨by norm_num, by simp, densify_vertices_verbatim _ _ (by norm_num) (by simp)⟩

/-- C2 (confirmed): for every route and positive spacing factor the source
densifier agrees with the spec's algorithm — per consecutive pair `(A, B)`,
`n = max(1, ⌊d / s⌋)` with `d` the Euclidean distance, `n - 1` interior
interpolants at ratios `j/n` rounded to 6 decimals, endpoints emitted once —
and in particular `densify [[0,0],[0,2]] 1 = [[0,0],[0,1],[0,2]]`. -/
theorem densify_implements_spec_algorithm :
    (∀ (coordinates : List (ℚ × ℚ)) (s : ℚ), 0 < s →
        evenly_space_coordinates coordinates s = densify_spec coordinates s) ∧
    evenly_space_coordinates [((0 : ℚ), (0 : ℚ)), (0, 2)] 1
      = [((0 : ℚ), (0 : ℚ)), (0, 1), (0, 2)] := by
  constructor
  · exact fun c s hs => densify_spec_eq c s hs
  · have hn : num_points ((0 : ℚ), (0 : ℚ)) ((0 : ℚ), (2 : ℚ)) 1 = 2 := by
      rw [num_points, show sq_dist ((0 : ℚ), (0 : ℚ)) ((0 : ℚ), (2 : ℚ)) = 4 from by
        norm_num [sq_dist]]
      norm_num
      decide
    have r0 : round6 (0 : ℚ) = 0 := round6_eq_self 0 0 (by norm_num)
    have r1 : round6 (1 : ℚ) = 1 := round6_eq_self 1 1000000 (by norm_num)
    have hip : intermediate_points ((0 : ℚ), (0 : ℚ)) ((0 : ℚ), (2 : ℚ)) 1
        = [((0 : ℚ), (1 : ℚ))] := by
      simp only [intermediate_points, hn]
      rw [show List.range' 1 (2 - 1) = [1] from rfl]
      simp only [List.map_cons, List.map_nil]
      norm_num [r0, r1]
    rw [evenly_space_eq_walk]
    rw [show walk 1 ((0 : ℚ), (0 : ℚ)) [((0 : ℚ), (2 : ℚ))]
        = ((0 : ℚ), (0 : ℚ)) ::
          (intermediate_points ((0 : ℚ), (0 : ℚ)) ((0 : ℚ), (2 : ℚ)) 1 ++
            [((0 : ℚ), (2 : ℚ))]) from rfl]
    rw [hip]
    rfl

theorem densify_implements_spec_algorithm_witness :
    (0 : ℚ) < 1 / 2 ∧
    evenly_space_coordinates [((0 : ℚ), (0 : ℚ)), (0, 3)] (1 / 2)
      = densify_spec [((0 : ℚ), (0 : ℚ)), (0, 3)] (1 / 2) :=
  ⟨by norm_num, densify_implements_spec_algorithm.1 _ _ (by norm_num)⟩

/-- C1 counterexample: the claim "consecutive points from a single segment
are at distance at most `s` (within rounding tolerance), except possibly the
final sub-segment" is false.  On the single-segment route
`[[0,0],[0,2.5]]` with `s = 1` the code takes `n = max(1, ⌊2.5⌋) = 2` and
outputs `[[0,0],[0,1.25],[0,2.5]]`: the first consecutive pair — not the
final sub-segment, which is the second pair — has squared distance
`(5/4)^2 > (1 + 1/1000)^2`, exceeding `s` by far more than the rounding
tolerance (each rounded coordinate moves by at most `5·10⁻⁷`). -/
theorem densify_spacing_exceeds_factor :
    evenly_space_coordinates [((0 : ℚ), (0 : ℚ)), (0, 5 / 2)] 1
      = [((0 : ℚ), (0 : ℚ)), (0, 5 / 4), (0, 5 / 2)] ∧
    sq_dist ((0 : ℚ), (0 : ℚ)) ((0 : ℚ), (5 / 4 : ℚ)) > (1 + 1 / 1000) ^ 2 := by
  constructor
  · have hn : num_points ((0 : ℚ), (0 : ℚ)) ((0 : ℚ), (5 / 2 : ℚ)) 1 = 2 := by
      rw [num_points,
        show sq_dist ((0 : ℚ), (0 : ℚ)) ((0 : ℚ), (5 / 2 : ℚ)) = 25 / 4 from by
          norm_num [sq_dist],
        show ((25 / 4 : ℚ) / 1 ^ 2) = 25 / 4 from by norm_num,
        show ⌊(25 / 4 : ℚ)⌋₊ = 6 from by
          rw [Nat.floor_eq_iff (by norm_num)]
          norm_num]
      decide
    have r0 : round6 (0 : ℚ) = 0 := round6_eq_self 0 0 (by norm_num)
    have r54 : round6 (5 / 4 : ℚ) = 5 / 4 := round6_eq_self _ 1250000 (by norm_num)
    have hip : intermediate_points ((0 : ℚ), (0 : ℚ)) ((0 : ℚ), (5 / 2 : ℚ)) 1
        = [((0 : ℚ), (5 / 4 : ℚ))] := by
      simp only [intermediate_points, hn]
      rw [show List.range' 1 (2 - 1) = [1] from rfl]
      simp only [List.map_cons, List.map_nil]
      norm_num [r0, r54]
    rw [evenly_space_eq_walk]
    rw [show walk 1 ((0 : ℚ), (0 : ℚ)) [((0 : ℚ), (5 / 2 : ℚ))]
        = ((0 : ℚ), (0 : ℚ)) ::
          (intermediate_points ((0 : ℚ), (0 : ℚ)) ((0 : ℚ), (5 / 2 : ℚ)) 1 ++
            [((0 : ℚ), (5 / 2 : ℚ))]) from rfl]
    rw [hip]
    rfl
  · norm_num [sq_dist]

/-- C1 (corrected): what actually holds is a `2·s` bound.  The code floors
`d / s` (`n = max(1, ⌊d/s⌋)`), so the `n` equal sub-segments of a segment
have unrounded length `d/n ∈ [s, 2s)` whenever `d ≥ s` — not `≤ s`.  Every
pair of consecutive points of the densified route (all such pairs come from
a single input segment, since adjacent segments share their boundary point)
is at Euclidean distance below `2·s + 2·10⁻⁶`, the `2·10⁻⁶` being the
interpolation-rounding tolerance; in squared form
`sq_dist P Q < (2s + 1/500000)^2`. -/
theorem densify_consecutive_spacing_bound (coordinates : List (ℚ × ℚ)) (s : ℚ)
    (hs : 0 < s) (h2 : 2 ≤ coordinates.length) :
    List.Chain' (fun P Q => sq_dist P Q < (2 * s + 1 / 500000) ^ 2)
      (evenly_space_coordinates coordinates s) := by
  cases coordinates with
  | nil => simp at h2
  | cons p t =>
      cases t with
      | nil => simp at h2
      | cons q rest =>
          rw [evenly_space_eq_walk]
          exact walk_chain' s hs (q :: rest) p

theorem densify_consecutive_spacing_bound_witness :
    (0 : ℚ) < 1 ∧ 2 ≤ ([((0 : ℚ), (0 : ℚ)), (0, 2)] : List (ℚ × ℚ)).length ∧
    List.Chain' (fun P Q => sq_dist P Q < (2 * 1 + 1 / 500000) ^ 2)
      (evenly_space_coordinates [((0 : ℚ), (0 : ℚ)), (0, 2)] 1) :=
  ⟨by norm_num, by simp,
    densify_consecutive_spacing_bound _ _ (by norm_num) (by simp)⟩

/-- C3 counterexample: the claim "the shared endpoint of a zero-distance
segment is emitted exactly once, so no point is duplicated" is false.  On
route `[[0,0],[0,0],[0,1]]` with `s = 1` the code emits `(0,0)` twice — once
as the end of the zero-distance segment and once as its start — producing
`[[0,0],[0,0],[0,1]]`, in which `(0,0)` occurs twice. -/
theorem densify_duplicates_shared_endpoint :
    evenly_space_coordinates [((0 : ℚ), (0 : ℚ)), (0, 0), (0, 1)] 1
      = [((0 : ℚ), (0 : ℚ)), (0, 0), (0, 1)] ∧
    (evenly_space_coordinates [((0 : ℚ), (0 : ℚ)), (0, 0), (0, 1)] 1).count
        ((0 : ℚ), (0 : ℚ)) = 2 := by
  have hn : num_points ((0 : ℚ), (0 : ℚ)) ((0 : ℚ), (1 : ℚ)) 1 = 1 := by
    rw [num_points, show sq_dist ((0 : ℚ), (0 : ℚ)) ((0 : ℚ), (1 : ℚ)) = 1 from by
      norm_num [sq_dist]]
    norm_num
    decide
  have hip : intermediate_points ((0 : ℚ), (0 : ℚ)) ((0 : ℚ), (1 : ℚ)) 1 = [] := by
    simp only [intermediate_points, hn]
    rfl
  have h : evenly_space_coordinates [((0 : ℚ), (0 : ℚ)), (0, 0), (0, 1)] 1
      = [((0 : ℚ), (0 : ℚ)), (0, 0), (0, 1)] := by
    rw [evenly_space_eq_walk]
    rw [show walk 1 ((0 : ℚ), (0 : ℚ)) [((0 : ℚ), (0 : ℚ)), ((0 : ℚ), (1 : ℚ))]
        = ((0 : ℚ), (0 : ℚ)) ::
          (intermediate_points ((0 : ℚ), (0 : ℚ)) ((0 : ℚ), (0 : ℚ)) 1 ++
            (((0 : ℚ), (0 : ℚ)) ::
              (intermediate_points ((0 : ℚ), (0 : ℚ)) ((0 : ℚ), (1 : ℚ)) 1 ++
                [((0 : ℚ), (1 : ℚ))]))) from rfl]
    rw [intermediate_points_self, hip]
    rfl
  refine ⟨h, ?_⟩
  rw [h]
  norm_num [List.count_cons, Prod.ext_iff]

/-- C3 (corrected): a zero-distance segment does produce no interpolated
points (the `n = max(1, ⌊0⌋) = 1` case emits nothing), but the shared
waypoint is emitted twice, not once: whenever the route contains two
adjacent identical waypoints, the densified output contains those two equal
points adjacently — the endpoint is duplicated across the segment
boundary. -/
theorem densify_zero_segment (l₁ l₂ : List (ℚ × ℚ)) (P : ℚ × ℚ) (s : ℚ)
    (_hs : 0 < s) :
    intermediate_points P P s = [] ∧
    ∃ u v, evenly_space_coordinates (l₁ ++ P :: P :: l₂) s = u ++ P :: P :: v := by
  refine ⟨intermediate_points_self P s, ?_⟩
  cases l₁ with
  | nil =>
      rw [show (([] : List (ℚ × ℚ)) ++ P :: P :: l₂) = P :: P :: l₂ from rfl]
      rw [evenly_space_eq_walk]
      obtain ⟨t, ht⟩ := walk_dup s P l₂
      exact ⟨[], t, by rw [ht]; rfl⟩
  | cons x l₁' =>
      obtain ⟨y, ys, hy⟩ : ∃ y ys, l₁' ++ P :: P :: l₂ = y :: ys := by
        cases l₁' with
        | nil => exact ⟨P, P :: l₂, rfl⟩
        | cons a b => exact ⟨a, b ++ P :: P :: l₂, rfl⟩
      rw [show ((x :: l₁') ++ P :: P :: l₂) = x :: (l₁' ++ P :: P :: l₂) from rfl,
        hy, evenly_space_eq_walk, ← hy]
      obtain ⟨u, hu⟩ := walk_suffix s l₁' x P (P :: l₂)
      obtain ⟨t, ht⟩ := walk_dup s P l₂
      exact ⟨u, t, by rw [hu, ht]⟩

theorem densify_zero_segment_witness :
    (0 : ℚ) < 1 ∧
    (intermediate_points ((0 : ℚ), (0 : ℚ)) ((0 : ℚ), (0 : ℚ)) 1 = [] ∧
      ∃ u v, evenly_space_coordinates
          ([] ++ ((0 : ℚ), (0 : ℚ)) :: ((0 : ℚ), (0 : ℚ)) :: [((0 : ℚ), (1 : ℚ))]) 1
        = u ++ ((0 : ℚ), (0 : ℚ)) :: ((0 : ℚ), (0 : ℚ)) :: v) :=
  ⟨by norm_num, densify_zero_segment [] [((0 : ℚ), (1 : ℚ))] _ _ (by norm_num)⟩

/-- C5 (confirmed): the matcher returns the first stop, in the given order,
whose square tolerance region strictly contains the position (both
coordinate distances strictly below the tolerance); it returns nothing
exactly when no stop's region contains the position; and when two stops
`[A, B]` both cover the position it returns `A` (index 0). -/
theorem matcher_first_stop (pos : ℚ × ℚ) (stops : List (ℚ × ℚ)) (tol : ℚ) :
    (∀ i, find_bin_index pos tol stops 0 = some i →
        i < stops.length ∧
        (|pos.1 - (stops.getD i (0, 0)).1| < tol ∧
          |pos.2 - (stops.getD i (0, 0)).2| < tol) ∧
        ∀ j, j < i →
          ¬(|pos.1 - (stops.getD j (0, 0)).1| < tol ∧
            |pos.2 - (stops.getD j (0, 0)).2| < tol)) ∧
    (find_bin_index pos tol stops 0 = none ↔
        ∀ b ∈ stops, ¬(|pos.1 - b.1| < tol ∧ |pos.2 - b.2| < tol)) ∧
    (∀ A B : ℚ × ℚ,
        (|pos.1 - A.1| < tol ∧ |pos.2 - A.2| < tol) →
        (|pos.1 - B.1| < tol ∧ |pos.2 - B.2| < tol) →
        find_bin_index pos tol [A, B] 0 = some 0) := by
  refine ⟨?_, ?_, ?_⟩
  · intro i h
    have h0 : find_bin_index pos tol stops 0 = some (0 + i) := by simpa using h
    obtain ⟨h1, h2, h3⟩ := find_bin_index_some pos tol stops 0 i h0
    refine ⟨h1, (is_near_waypoint_iff _ _ _).mp h2, ?_⟩
    intro j hj hc
    have hb := (is_near_waypoint_iff pos (stops.getD j (0, 0)) tol).mpr hc
    rw [h3 j hj] at hb
    exact Bool.false_ne_true hb
  · rw [find_bin_index_none]
    constructor
    · intro h b hb hc
      have hbool := (is_near_waypoint_iff pos b tol).mpr hc
      rw [h b hb] at hbool
      exact Bool.false_ne_true hbool
    · intro h b hb
      rw [← Bool.not_eq_true]
      intro ht
      exact h b hb ((is_near_waypoint_iff pos b tol).mp ht)
  · intro A B hA _hB
    simp only [find_bin_index]
    rw [if_pos ((is_near_waypoint_iff pos A tol).mpr hA)]

theorem matcher_first_stop_witness :
    ((|(0 : ℚ) - 0| < 1 ∧ |(0 : ℚ) - 0| < 1) ∧
      (|(0 : ℚ) - 0| < 1 ∧ |(0 : ℚ) - 0| < 1)) ∧
    find_bin_index ((0 : ℚ), (0 : ℚ)) 1 [((0 : ℚ), (0 : ℚ)), ((0 : ℚ), (0 : ℚ))] 0
      = some 0 :=
  ⟨⟨⟨by norm_num, by norm_num⟩, ⟨by norm_num, by norm_num⟩⟩,
    (matcher_first_stop ((0 : ℚ), (0 : ℚ)) [] 1).2.2 ((0 : ℚ), (0 : ℚ))
      ((0 : ℚ), (0 : ℚ)) ⟨by norm_num, by norm_num⟩ ⟨by norm_num, by norm_num⟩⟩

/-- C4 counterexample: constructing the simulator with speedMultiplier 0
raises nothing — `__init__` only stores its arguments, so the claim's
construction-time `ConfigurationError` does not exist — and the division by
zero then happens mid-run: the first inter-step sleep `1.0 / speed` has no
value, so on a two-point route the run aborts after the first report instead
of being rejected at construction. -/
theorem constructor_accepts_zero_speed :
    (DriverSimulator.init "http://localhost:5000" none 0 10).speed = 0 ∧
    (DriverSimulator.init "http://localhost:5000" none 0 10).sleep_time = none ∧
    (drive_route (DriverSimulator.init "http://localhost:5000" none 0 10)
        (fun _ _ _ => Except.ok "ok") [((0 : ℚ), (0 : ℚ)), (0, 1)] []).2 = false ∧
    (drive_route (DriverSimulator.init "http://localhost:5000" none 0 10)
        (fun _ _ _ => Except.ok "ok") [((0 : ℚ), (0 : ℚ)), (0, 1)] []).1.length
      = 1 := by
  have habort := drive_route_from_abort (fun _ _ _ => Except.ok "ok") [] 0
    (lt_irrefl 0) ((0 : ℚ), (0 : ℚ)) ((0 : ℚ), (1 : ℚ)) [] 0
  refine ⟨rfl, ?_, ?_, ?_⟩
  · show (if (0 : ℚ) = 0 then none else some (1 / (0 : ℚ))) = none
    rw [if_pos rfl]
  · show (drive_route_from (fun _ _ _ => Except.ok "ok") [] 0 0
        [((0 : ℚ), (0 : ℚ)), (0, 1)]).2 = false
    rw [habort]
  · show (drive_route_from (fun _ _ _ => Except.ok "ok") [] 0 0
        [((0 : ℚ), (0 : ℚ)), (0, 1)]).1.length = 1
    rw [habort]
    rfl

/-- C4 (corrected): construction performs no validation and cannot fail —
any speedMultiplier (zero or negative included) is stored as given, and no
ConfigurationError exists anywhere in the program.  The inter-step interval
is `1 / speedMultiplier` for nonzero speed; with speed 0 the division by
zero, and with negative speed the negative sleep interval, abort the walk
mid-run (after the first report on a route of ≥ 2 points) rather than at
construction. -/
theorem constructor_no_validation (base_url : String) (token : Option String)
    (speed pause_time : ℚ) :
    (DriverSimulator.init base_url token speed pause_time).speed = speed ∧
    (speed ≠ 0 →
      (DriverSimulator.init base_url token speed pause_time).sleep_time
        = some (1 / speed)) ∧
    (speed < 0 →
      ∃ t, (DriverSimulator.init base_url token speed pause_time).sleep_time
          = some t ∧ t < 0) ∧
    ∀ (post : ℕ → ℚ → ℚ → Except String String) (bins : List (ℚ × ℚ))
      (c c' : ℚ × ℚ) (rest : List (ℚ × ℚ)), speed ≤ 0 →
        (drive_route (DriverSimulator.init base_url token speed pause_time) post
            (c :: c' :: rest) bins).2 = false ∧
        (drive_route (DriverSimulator.init base_url token speed pause_time) post
            (c :: c' :: rest) bins).1.length = 1 := by
  refine ⟨rfl, ?_, ?_, ?_⟩
  · intro h
    show (if speed = 0 then none else some (1 / speed)) = some (1 / speed)
    rw [if_neg h]
  · intro h
    refine ⟨1 / speed, ?_, one_div_neg.mpr h⟩
    show (if speed = 0 then none else some (1 / speed)) = some (1 / speed)
    rw [if_neg (ne_of_lt h)]
  · intro post bins c c' rest h
    have habort := drive_route_from_abort post bins speed (not_lt.mpr h) c c' rest 0
    constructor
    · show (drive_route_from post bins speed 0 (c :: c' :: rest)).2 = false
      rw [habort]
    · show (drive_route_from post bins speed 0 (c :: c' :: rest)).1.length = 1
      rw [habort]
      rfl

theorem constructor_no_validation_witness :
    ((-2 : ℚ) ≠ 0 ∧ (-2 : ℚ) < 0 ∧ (-2 : ℚ) ≤ 0) ∧
    (DriverSimulator.init "u" none (-2) 5).speed = -2 ∧
    (DriverSimulator.init "u" none (-2) 5).sleep_time = some (1 / (-2)) ∧
    (drive_route (DriverSimulator.init "u" none (-2) 5)
        (fun _ _ _ => Except.ok "ok") [((0 : ℚ), (0 : ℚ)), (0, 1)] []).2 = false :=
  ⟨⟨by norm_num, by norm_num, by norm_num⟩,
    (constructor_no_validation "u" none (-2) 5).1,
    (constructor_no_validation "u" none (-2) 5).2.1 (by norm_num),
    ((constructor_no_validation "u" none (-2) 5).2.2.2
      (fun _ _ _ => Except.ok "ok") [] ((0 : ℚ), (0 : ℚ)) ((0 : ℚ), (1 : ℚ)) []
      (by norm_num)).1⟩

/-- C6 (confirmed): a collaborator failure at step `k` is caught by
`update_location` and recorded as the `{"error": ...}` response of step `k`,
and the walk continues: step `k + 1` still executes (with the right index
and position) and the whole run completes.  No report failure ever aborts
the walk. -/
theorem report_failure_does_not_abort (sim : DriverSimulator)
    (post : ℕ → ℚ → ℚ → Except String String) (route bins : List (ℚ × ℚ))
    (k : ℕ) (e : String) (hspeed : 0 < sim.speed) (hk : k + 1 < route.length)
    (hfail : post k (route.getD k (0, 0)).1 (route.getD k (0, 0)).2
        = Except.error e) :
    ((drive_route sim post route bins).1.getD k default).response
        = LocationResponse.error_dict e ∧
    ((drive_route sim post route bins).1.getD (k + 1) default).index = k + 1 ∧
    ((drive_route sim post route bins).1.getD (k + 1) default).position
        = route.getD (k + 1) (0, 0) ∧
    (drive_route sim post route bins).2 = true := by
  have hspec := drive_route_from_spec post bins sim.speed hspeed route 0
  have hk0 : k < route.length := by omega
  have h1 := hspec.2.2 k hk0
  have h2 := hspec.2.2 (k + 1) hk
  simp only [Nat.zero_add] at h1 h2
  refine ⟨?_, h2.1, h2.2.1, hspec.1⟩
  show ((drive_route_from post bins sim.speed 0 route).1.getD k default).response
      = LocationResponse.error_dict e
  rw [h1.2.2.1, update_location, hfail]

theorem report_failure_does_not_abort_witness :
    ((0 : ℚ) < (DriverSimulator.init "u" none 1 10).speed ∧
      0 + 1 < ([((0 : ℚ), (0 : ℚ)), (0, 1)] : List (ℚ × ℚ)).length) ∧
    (((drive_route (DriverSimulator.init "u" none 1 10)
          (fun i _ _ => if i = 0 then Except.error "boom" else Except.ok "ok")
          [((0 : ℚ), (0 : ℚ)), (0, 1)] []).1.getD 0 default).response
        = LocationResponse.error_dict "boom" ∧
      ((drive_route (DriverSimulator.init "u" none 1 10)
          (fun i _ _ => if i = 0 then Except.error "boom" else Except.ok "ok")
          [((0 : ℚ), (0 : ℚ)), (0, 1)] []).1.getD (0 + 1) default).index = 0 + 1 ∧
      ((drive_route (DriverSimulator.init "u" none 1 10)
          (fun i _ _ => if i = 0 then Except.error "boom" else Except.ok "ok")
          [((0 : ℚ), (0 : ℚ)), (0, 1)] []).1.getD (0 + 1) default).position
        = ([((0 : ℚ), (0 : ℚ)), (0, 1)] : List (ℚ × ℚ)).getD (0 + 1) (0, 0) ∧
      (drive_route (DriverSimulator.init "u" none 1 10)
          (fun i _ _ => if i = 0 then Except.error "boom" else Except.ok "ok")
          [((0 : ℚ), (0 : ℚ)), (0, 1)] []).2 = true) :=
  ⟨⟨by show (0 : ℚ) < 1; norm_num, by simp⟩,
    report_failure_does_not_abort (DriverSimulator.init "u" none 1 10)
      (fun i _ _ => if i = 0 then Except.error "boom" else Except.ok "ok")
      [((0 : ℚ), (0 : ℚ)), (0, 1)] [] 0 "boom" (by show (0 : ℚ) < 1; norm_num)
      (by simp) rfl⟩

/-- C8 (confirmed): in a run over the densified route in which no densified
point matches any stop, the walker performs exactly one `update_location`
report per densified point: the trace has length `len(DensifiedRoute)`, its
`j`-th report is at the `j`-th densified point with no bin matched, and the
run completes. -/
theorem walker_reports_every_point (sim : DriverSimulator)
    (post : ℕ → ℚ → ℚ → Except String String)
    (coordinates bins : List (ℚ × ℚ)) (s : ℚ) (_hs : 0 < s)
    (hspeed : 0 < sim.speed)
    (hnostop : ∀ P ∈ evenly_space_coordinates coordinates s, ∀ b ∈ bins,
        is_near_waypoint P b COORDINATE_TOLERANCE = false) :
    (drive_route sim post (evenly_space_coordinates coordinates s) bins).1.length
        = (evenly_space_coordinates coordinates s).length ∧
    (drive_route sim post (evenly_space_coordinates coordinates s) bins).2 = true ∧
    ∀ j, j < (evenly_space_coordinates coordinates s).length →
      ((drive_route sim post (evenly_space_coordinates coordinates s) bins).1.getD j
          default).position
        = (evenly_space_coordinates coordinates s).getD j (0, 0) ∧
      ((drive_route sim post (evenly_space_coordinates coordinates s) bins).1.getD j
          default).bin_index = none := by
  have hspec := drive_route_from_spec post bins sim.speed hspeed
    (evenly_space_coordinates coordinates s) 0
  refine ⟨hspec.2.1, hspec.1, ?_⟩
  intro j hj
  have h := hspec.2.2 j hj
  refine ⟨h.2.1, ?_⟩
  show ((drive_route_from post bins sim.speed 0
      (evenly_space_coordinates coordinates s)).1.getD j default).bin_index = none
  rw [h.2.2.2, find_bin_index_none]
  intro b hb
  exact hnostop _ (getD_mem_of_lt _ _ j hj) b hb

theorem walker_reports_every_point_witness :
    ((0 : ℚ) < 1 ∧ (0 : ℚ) < (DriverSimulator.init "u" none 1 10).speed) ∧
    ((drive_route (DriverSimulator.init "u" none 1 10) (fun _ _ _ => Except.ok "ok")
          (evenly_space_coordinates [((0 : ℚ), (0 : ℚ)), (0, 2)] 1) []).1.length
        = (evenly_space_coordinates [((0 : ℚ), (0 : ℚ)), (0, 2)] 1).length ∧
      (drive_route (DriverSimulator.init "u" none 1 10) (fun _ _ _ => Except.ok "ok")
          (evenly_space_coordinates [((0 : ℚ), (0 : ℚ)), (0, 2)] 1) []).2 = true ∧
      ∀ j, j < (evenly_space_coordinates [((0 : ℚ), (0 : ℚ)), (0, 2)] 1).length →
        ((drive_route (DriverSimulator.init "u" none 1 10)
            (fun _ _ _ => Except.ok "ok")
            (evenly_space_coordinates [((0 : ℚ), (0 : ℚ)), (0, 2)] 1) []).1.getD j
              default).position
          = (evenly_space_coordinates [((0 : ℚ), (0 : ℚ)), (0, 2)] 1).getD j (0, 0) ∧
        ((drive_route (DriverSimulator.init "u" none 1 10)
            (fun _ _ _ => Except.ok "ok")
            (evenly_space_coordinates [((0 : ℚ), (0 : ℚ)), (0, 2)] 1) []).1.getD j
              default).bin_index = none) :=
  ⟨⟨by norm_num, by show (0 : ℚ) < 1; norm_num⟩,
    walker_reports_every_point (DriverSimulator.init "u" none 1 10)
      (fun _ _ _ => Except.ok "ok") [((0 : ℚ), (0 : ℚ)), (0, 2)] [] 1
      (by norm_num) (by show (0 : ℚ) < 1; norm_num) (by simp)⟩

end WctDriverSim
